import Mathlib

/-!
Verification of `src/lib/core/utils/filter-html-attrs.js`.

The JavaScript source is shallowly embedded over `List Char` strings.
The two regular expressions (`tagStringRegex` and `attributeRegex`) are
modelled operationally: the tag scanner as a character-level state machine
equivalent to the lazy pattern between angle brackets, and the attribute
scanner as a position-by-position alternation with the same greedy /
word-boundary behaviour as the source pattern.  Fallible evaluation (a
`null` nested matcher makes the JS code throw a `TypeError`) is modelled
with `Except Unit`.
-/

deriving instance DecidableEq for Except

namespace FilterHtmlAttrsSpec

/-- Strings are modelled as lists of characters. -/
abbrev Str := List Char

/-- Whitespace class used by the source regexes (`\s`) and by `trim`:
space, tab, line feed, vertical tab, form feed, carriage return. -/
def isWs (c : Char) : Bool :=
  c == ' ' || c == '\t' || c == '\n' || c == '\r' ||
    c == Char.ofNat 11 || c == Char.ofNat 12

/-- Word characters for the regex `\b` boundary: `[A-Za-z0-9_]`. -/
def isWordChar (c : Char) : Bool := c.isAlphanum || c == '_'

/-- JavaScript `String.prototype.trim` on both ends. -/
def trimWs (l : Str) : Str :=
  ((l.dropWhile isWs).reverse.dropWhile isWs).reverse

/-- One parsed attribute: lowercased `name`, quote-stripped `value`, and the
exact matched substring `raw` (source lines 94-100). -/
structure AttrRec where
  name : Str
  value : Str
  raw : Str
deriving DecidableEq, Repr

/-- One parsed opening tag (source lines 103-107). -/
structure Element where
  nodeName : Str
  attributes : List AttrRec
  raw : Str
deriving DecidableEq, Repr

/-- Group 1 of `tagStringRegex = /<([^>]+?)\/?>/g`: the lazy inner group
drops one trailing `/` whenever at least one character remains. -/
def stripSlash (c : Str) : Str :=
  if 2 ≤ c.length then
    if c.getLast? = some '/' then c.dropLast else c
  else c

/-- State machine equivalent to scanning with `tagStringRegex`:
`none` = outside a candidate match, `some acc` = after a `<` with inner
content `acc` so far.  Emits `(match0, group1)` pairs, left to right,
non-overlapping, exactly as `exec` in a loop does (source lines 75-111). -/
def tagScanAux : Option Str → Str → List (Str × Str)
  | _, [] => []
  | none, c :: rest =>
    if c = '<' then tagScanAux (some []) rest else tagScanAux none rest
  | some acc, c :: rest =>
    if c = '>' then
      if acc = [] then tagScanAux none rest
      else ('<' :: acc ++ ['>'], stripSlash acc) :: tagScanAux none rest
    else tagScanAux (some (acc ++ [c])) rest

/-- Attempt the first alternative of `attributeRegex` at the current
position: `([^\s=]+)=` followed by a double-quoted, single-quoted or
unquoted value.  Returns `(raw, name, value, rest)` on success. -/
def tryAlt1 (s : Str) : Option (Str × Str × Str × Str) :=
  let run1 := s.takeWhile fun c => !isWs c && c != '='
  let rest1 := s.dropWhile fun c => !isWs c && c != '='
  if run1 = [] then none
  else
    match rest1 with
    | '=' :: rest2 =>
      match rest2 with
      | '"' :: rest3 =>
        let v := rest3.takeWhile fun c => c != '"'
        match rest3.dropWhile fun c => c != '"' with
        | '"' :: rest5 =>
          some (run1 ++ '=' :: '"' :: v ++ ['"'], run1, v, rest5)
        | _ =>
          -- no closing double quote: the quoted branches fail and the
          -- unquoted branch matches the empty value at the `"`
          some (run1 ++ ['='], run1, [], rest2)
      | '\'' :: rest3 =>
        let v := rest3.takeWhile fun c => c != '\''
        match rest3.dropWhile fun c => c != '\'' with
        | '\'' :: rest5 =>
          some (run1 ++ '=' :: '\'' :: v ++ ['\''], run1, v, rest5)
        | _ =>
          some (run1 ++ ['='], run1, [], rest2)
      | _ =>
        let v := rest2.takeWhile fun c => !isWs c && c != '"' && c != '\''
        let rest3 := rest2.dropWhile fun c => !isWs c && c != '"' && c != '\''
        some (run1 ++ '=' :: v, run1, v, rest3)
    | _ => none

/-- The regex `\b` boundary before the character `c`, where `pc` is the
character preceding the current position (`none` at the string start). -/
def boundary (pc : Option Char) (c : Char) : Bool :=
  (match pc with | none => false | some p => isWordChar p) != isWordChar c

/-- Scan loop of `attributeRegex` (source lines 93-101).  At each position
first try alternative 1 (`name=value`), then alternative 2
(`\b(\S+)(?:\B|\b)`, a bare attribute), else advance one character.
Fuel decreases once per step; every step consumes at least one character,
so `fuel = length` is always sufficient. -/
def attrScanF : Nat → Option Char → Str → List AttrRec
  | 0, _, _ => []
  | _, _, [] => []
  | fuel + 1, pc, c :: rest =>
    match tryAlt1 (c :: rest) with
    | some (raw, name, value, rest') =>
      ⟨name.map Char.toLower, value, raw⟩ :: attrScanF fuel raw.getLast? rest'
    | none =>
      if boundary pc c && !isWs c then
        ⟨((c :: rest).takeWhile fun x => !isWs x).map Char.toLower, [],
            (c :: rest).takeWhile fun x => !isWs x⟩ ::
          attrScanF fuel ((c :: rest).takeWhile fun x => !isWs x).getLast?
            ((c :: rest).dropWhile fun x => !isWs x)
      else attrScanF fuel (some c) rest

/-- All attribute matches of `attributeRegex` in `s`. -/
def attrScan (s : Str) : List AttrRec := attrScanF s.length none s

/-- `parseElements` (source lines 75-111): tokenize the whole string,
skip closing tags (inner content starting with `/`), split off the node
name at the first space, and scan the trimmed remainder for attributes. -/
def parseElements (s : Str) : List Element :=
  (tagScanAux none s).filterMap fun p =>
    if p.2.head? = some '/' then none
    else
      some { nodeName := (p.2.takeWhile fun c => c ≠ ' ').map Char.toLower
             attributes :=
               attrScan (trimWs ((p.2.dropWhile fun c => c ≠ ' ').drop 1))
             raw := p.1 }

/-- A matcher value as supplied by the caller.  The shapes are the ones the
source dispatches on (`typeof matcher` in `matches`, source lines 29-68):
booleans, strings, numbers, functions, `null`, arrays (of strings, the
documented shape) and matcher-like objects with optional `nodeName` and
`attributes` keys. -/
inductive Matcher where
  | bool (b : Bool)
  | str (s : Str)
  | num (n : Int)
  | fn
  | null
  | arr (xs : List Str)
  | obj (nodeName : Option Str) (attributes : Option (List (Str × Matcher)))

/-- Result of one call to `matches`: JavaScript `true`, `false`, the
implicit `undefined` returned when the `switch` falls through, or a thrown
`TypeError` (accessing `.nodeName` on `null`). -/
inductive MRes where
  | tt
  | ff
  | undef
  | err
deriving DecidableEq, Repr

/-- JavaScript truthiness of an `MRes` value. -/
def MRes.truthy : MRes → Bool
  | .tt => true
  | _ => false

def ofBool (b : Bool) : MRes := if b then .tt else .ff

/-- JavaScript `a && b` on match results: returns `a` when `a` is falsy
(short-circuiting, so `b` is never observed), else `b`. -/
def jsAnd (a b : MRes) : MRes := if a.truthy then b else a

/-- The `filter` flag of the object branch after the `nodeName` step
(source lines 41-46): the conjunct runs only when `matcher.nodeName` is
truthy, i.e. a non-empty string. -/
def objInit (nd : Str) : Option Str → MRes
  | none => .tt
  | some s => if s.isEmpty then .tt else ofBool (s == nd)

mutual

/-- The source function `matches(nodeName, attributes, value, matcher)`
(source lines 29-68); named `jsMatches` because `matches` is reserved in
Lean. -/
def jsMatches (nd : Str) (ats : List AttrRec) (value : Str) : Matcher → MRes
  | .bool _ => .tt
  | .str s => ofBool (s == value)
  | .num _ => .undef
  | .fn => .undef
  | .null => .err
  | .arr xs => ofBool (xs.contains value)
  | .obj nn pairsOpt =>
    match pairsOpt with
    | none => objInit nd nn
    | some pairs => matchesList nd ats (objInit nd nn) pairs

/-- The `Object.keys(matcher.attributes).forEach` loop (source lines
48-64): a sub-attribute missing from the element makes the callback
return early, leaving the flag untouched. -/
def matchesList (nd : Str) (ats : List AttrRec) (fl : MRes) :
    List (Str × Matcher) → MRes
  | [] => fl
  | (an, m) :: rest =>
    match ats.find? fun a => a.name == an with
    | none => matchesList nd ats fl rest
    | some attr => matchesList nd ats (jsAnd fl (jsMatches nd ats attr.value m)) rest

end

/-- JavaScript truthiness of a matcher value, as tested by
`if (!matcher) return true;` (source line 123). -/
def Matcher.truthy : Matcher → Bool
  | .bool b => b
  | .str s => !s.isEmpty
  | .num n => n != 0
  | .fn => true
  | .null => false
  | .arr _ => true
  | .obj _ _ => true

/-- `attrMap` (source lines 17-20). -/
def attrMap : List (Str × Str) :=
  [("for".data, "htmlFor".data), ("class".data, "className".data)]

/-- The rule-lookup key for an attribute name:
`attrMap[name] ? attrMap[name] : name` (source line 121). -/
def resolveKey (name : Str) : Str :=
  match attrMap.lookup name with
  | some v => if v.isEmpty then name else v
  | none => name

/-- A caller-supplied rule set: a finite map from logical attribute key to
matcher. -/
abbrev RuleSet := List (Str × Matcher)

/-- `attrs[key]`: JS object property lookup on the rule set. -/
def rlookup (attrs : RuleSet) (key : Str) : Option Matcher :=
  attrs.lookup key

/-- The filter callback of `filterAttributes` (source lines 120-128) for
one attribute: keep when no rule is found or the rule is falsy, otherwise
keep when `matches(...)` is not truthy; a thrown `TypeError` propagates. -/
def keepAttrE (attrs : RuleSet) (nd : Str) (ats : List AttrRec)
    (a : AttrRec) : Except Unit Bool :=
  match rlookup attrs (resolveKey a.name) with
  | none => .ok true
  | some m =>
    if !m.truthy then .ok true
    else
      match jsMatches nd ats a.value m with
      | .err => .error ()
      | r => .ok (!r.truthy)

/-- `Array.prototype.filter` with a fallible callback, evaluated left to
right with exceptions propagating. -/
def filterListE (f : AttrRec → Except Unit Bool) :
    List AttrRec → Except Unit (List AttrRec)
  | [] => .ok []
  | a :: rest => do
    let b ← f a
    let rest' ← filterListE f rest
    pure (if b then a :: rest' else rest')

/-- `attributes.map(attr => attr.raw).join(' ')` (source lines 134-135). -/
def joinRaws : List AttrRec → Str
  | [] => []
  | [a] => a.raw
  | a :: rest => a.raw ++ ' ' :: joinRaws rest

/-- ECMAScript `GetSubstitution` for a string pattern: in the replacement
string, `$$` yields `$`, `$&` yields the matched text, a dollar followed
by a backquote yields the part of the subject before the match, and a
dollar followed by a quote yields the part after the match; any other
dollar sequence is copied literally (a string pattern has no capture
groups, so `$1`, `$<`, ... pass through). -/
def getSubstitution (matched before after : Str) : Str → Str
  | [] => []
  | c :: rest =>
    if c = '$' then
      match rest with
      | [] => ['$']
      | d :: rest2 =>
        if d = '$' then '$' :: getSubstitution matched before after rest2
        else if d = '&' then matched ++ getSubstitution matched before after rest2
        else if d = Char.ofNat 96 then
          before ++ getSubstitution matched before after rest2
        else if d = '\'' then after ++ getSubstitution matched before after rest2
        else '$' :: d :: getSubstitution matched before after rest2
    else c :: getSubstitution matched before after rest

/-- Split the subject at the first occurrence of `pat`: returns
`(before, after)` with subject `= before ++ pat ++ after` and `before`
shortest, or `none` when `pat` does not occur. -/
def findFirst (pat : Str) : Str → Option (Str × Str)
  | [] => if pat.isPrefixOf [] then some ([], []) else none
  | c :: rest =>
    if pat.isPrefixOf (c :: rest) then some ([], (c :: rest).drop pat.length)
    else
      match findFirst pat rest with
      | some (b, a) => some (c :: b, a)
      | none => none

/-- JavaScript `s.replace(pat, repl)` with string arguments: replace the
first occurrence of `pat` by the replacement with `GetSubstitution`
applied, or return `s` unchanged when `pat` does not occur. -/
def replaceFirst (pat repl : Str) (s : Str) : Str :=
  match findFirst pat s with
  | none => s
  | some (before, after) => before ++ getSubstitution pat before after repl ++ after

/-- Tests whether an `Except` computation returned normally. -/
def isOkE {α : Type} : Except Unit α → Bool
  | .ok _ => true
  | .error _ => false

/-- `filterAttributes(element, attrs)` (source lines 119-138). -/
def filterAttributesE (el : Element) (attrs : RuleSet) : Except Unit Element := do
  let fa ← filterListE (keepAttrE attrs el.nodeName el.attributes) el.attributes
  pure { nodeName := el.nodeName
         attributes := fa
         raw := replaceFirst (joinRaws el.attributes) (joinRaws fa) el.raw }

/-- `filterHtmlAttrs(htmlString, filterAttrs)` (source lines 164-176).
`none` models an absent / falsy `filterAttrs` argument. -/
def filterHtmlAttrsE (htmlString : Str) (filterAttrs : Option RuleSet) :
    Except Unit Str :=
  match filterAttrs with
  | none => .ok htmlString
  | some attrs =>
    (parseElements htmlString).foldlM
      (fun acc el => do
        let fe ← filterAttributesE el attrs
        pure (replaceFirst el.raw fe.raw acc))
      htmlString

/-! ### Spec-side predicates and concrete data

The following definitions follow the wording of the (amended) claims; the
theorems below relate them to the embedded source functions. -/

/-- Spec-side node-name conjunct of a structured matcher (amended claim
C3): a non-empty `nodeName` key must equal the node name of the element, an
absent or empty one imposes nothing. -/
def nodeNameConj (nd : Str) : Option Str → Bool
  | none => true
  | some s => s.isEmpty || s == nd

/-- Spec-side conjunct for one entry of the `attributes` mapping of a
structured matcher: an entry whose named sub-attribute is missing from
the element is skipped, an existing one must recursively satisfy (be
truthy under) the nested matcher. -/
def subAttrConj (nd : Str) (ats : List AttrRec) (p : Str × Matcher) : Bool :=
  match ats.find? fun a => a.name == p.1 with
  | none => true
  | some attr => (jsMatches nd ats attr.value p.2).truthy

/-- Spec-side keep predicate (amended claim C1): an attribute is kept iff
no matcher is registered under its alias-resolved name, or the registered
matcher is falsy, or the matcher does not evaluate to `true`. -/
def keepSpecB (attrs : RuleSet) (nd : Str) (ats : List AttrRec)
    (a : AttrRec) : Bool :=
  match rlookup attrs (resolveKey a.name) with
  | none => true
  | some m => !m.truthy || !(jsMatches nd ats a.value m == .tt)

/-- The class of matcher values of claim C8: falsy, or of an unrecognized
non-object type (a number or a function). -/
def harmless (m : Matcher) : Bool :=
  !m.truthy || (match m with | .num _ => true | .fn => true | _ => false)

/-- The rule governing attribute `name` is either absent or harmless. -/
def harmlessLookup (r : RuleSet) (name : Str) : Bool :=
  match rlookup r (resolveKey name) with
  | none => true
  | some m => harmless m

/-- The element parsed from the running example of the spec,
`<div data-x="y">t</div>`. -/
def exElem : Element :=
  { nodeName := "div".data
    attributes := [⟨"data-x".data, "y".data, "data-x=\"y\"".data⟩]
    raw := "<div data-x=\"y\">".data }

/-- The element parsed from `<div a="1"  b="2">` (two spaces between the
attributes). -/
def elTwoSpaces : Element :=
  { nodeName := "div".data
    attributes := [⟨"a".data, "1".data, "a=\"1\"".data⟩,
                   ⟨"b".data, "2".data, "b=\"2\"".data⟩]
    raw := "<div a=\"1\"  b=\"2\">".data }

/-! ### Sanity checks of the embedding on concrete inputs -/

example :
    parseElements "<div data-x=\"y\">t</div>".data = [exElem] := by decide

example : jsMatches "div".data [] "y".data (.bool true) = .tt := by decide
example : jsMatches "div".data [] "y".data (.str "y".data) = .tt := by decide
example : jsMatches "div".data [] "y".data (.str "z".data) = .ff := by decide
example : jsMatches "div".data [] "y".data (.obj none none) = .tt := by decide

example :
    filterHtmlAttrsE "<div data-x=\"y\">t</div>".data
        (some [("data-x".data, .str "z".data)]) =
      .ok "<div data-x=\"y\">t</div>".data := by decide

example :
    filterHtmlAttrsE "<div data-x=\"y\">t</div>".data
        (some [("data-x".data, .arr ["y".data, "z".data])]) =
      .ok "<div >t</div>".data := by decide

example :
    filterHtmlAttrsE "<input type=\"text\" class=\"foo\">".data
        (some [("className".data, .obj (some "input".data) none)]) =
      .ok "<input type=\"text\">".data := by decide

example :
    filterHtmlAttrsE "<div class=\"foo\">x</div>".data
        (some [("className".data, .obj (some "input".data) none)]) =
      .ok "<div class=\"foo\">x</div>".data := by decide

example :
    filterHtmlAttrsE "<input disabled>".data
        (some [("disabled".data, .bool true)]) =
      .ok "<input >".data := by decide

/-! ### Basic lemmas about the embedded operations -/

@[simp] theorem except_bind_ok {α β : Type} (a : α) (f : α → Except Unit β) :
    (Except.ok a : Except Unit α) >>= f = f a := rfl

@[simp] theorem except_bind_error {α β : Type} (e : Unit) (f : α → Except Unit β) :
    (Except.error e : Except Unit α) >>= f = Except.error e := rfl

@[simp] theorem except_map_ok {α β : Type} (a : α) (f : α → β) :
    f <$> (Except.ok a : Except Unit α) = Except.ok (f a) := rfl

@[simp] theorem except_map_error {α β : Type} (e : Unit) (f : α → β) :
    f <$> (Except.error e : Except Unit α) = Except.error e := rfl

@[simp] theorem except_pure {α : Type} (a : α) :
    (pure a : Except Unit α) = Except.ok a := rfl

theorem truthy_ofBool (b : Bool) : (ofBool b).truthy = b := by
  cases b <;> rfl

theorem truthy_jsAnd (a b : MRes) :
    (jsAnd a b).truthy = (a.truthy && b.truthy) := by
  cases a <;> cases b <;> rfl

theorem getSubstitution_no_dollar (m b a : Str) :
    ∀ repl, '$' ∉ repl → getSubstitution m b a repl = repl
  | [], _ => rfl
  | c :: rest, h => by
    have hc : c ≠ '$' := by
      intro e
      subst e
      exact h (List.mem_cons_self _ _)
    rw [getSubstitution.eq_def]
    simp only [if_neg hc]
    rw [getSubstitution_no_dollar m b a rest fun hm => h (List.mem_cons_of_mem c hm)]

theorem findFirst_eq (pat : Str) :
    ∀ s b a, findFirst pat s = some (b, a) → s = b ++ pat ++ a
  | [], b, a, h => by
    rw [findFirst] at h
    split at h
    · next hp =>
      have hnil : pat = [] :=
        List.prefix_nil.mp (List.isPrefixOf_iff_prefix.mp hp)
      simp only [Option.some.injEq, Prod.mk.injEq] at h
      simp [← h.1, ← h.2, hnil]
    · exact absurd h (by simp)
  | c :: rest, b, a, h => by
    rw [findFirst] at h
    split at h
    · next hp =>
      obtain ⟨t, ht⟩ := List.isPrefixOf_iff_prefix.mp hp
      simp only [Option.some.injEq, Prod.mk.injEq] at h
      rw [← h.1, ← h.2, ← ht, List.drop_left]
      simp
    · cases hr : findFirst pat rest with
      | some q =>
        obtain ⟨b2, a2⟩ := q
        rw [hr] at h
        simp only [Option.some.injEq, Prod.mk.injEq] at h
        have := findFirst_eq pat rest b2 a2 hr
        rw [← h.1, ← h.2, this]
        simp
      | none => rw [hr] at h; exact absurd h (by simp)

theorem findFirst_none_of_no_occurrence (pat : Str) :
    ∀ s, ¬ pat <:+: s → findFirst pat s = none
  | [], h => by
    rw [findFirst]
    split
    · next hp => exact absurd (List.isPrefixOf_iff_prefix.mp hp).isInfix h
    · rfl
  | c :: rest, h => by
    rw [findFirst]
    split
    · next hp => exact absurd (List.isPrefixOf_iff_prefix.mp hp).isInfix h
    · rw [findFirst_none_of_no_occurrence pat rest fun hi => h (List.infix_cons hi)]

theorem replaceFirst_no_occurrence (pat repl s : Str) (h : ¬ pat <:+: s) :
    replaceFirst pat repl s = s := by
  rw [replaceFirst, findFirst_none_of_no_occurrence pat s h]

/-- Replacing a dollar-free pattern by itself is the identity.  (For a
pattern containing `$` this fails: `GetSubstitution` rewrites the
replacement even when it is the pattern itself.) -/
theorem replaceFirst_self (pat s : Str) (hd : '$' ∉ pat) :
    replaceFirst pat pat s = s := by
  rw [replaceFirst]
  cases hf : findFirst pat s with
  | none => rfl
  | some q =>
    obtain ⟨b, a⟩ := q
    show b ++ getSubstitution pat b a pat ++ a = s
    rw [getSubstitution_no_dollar pat b a pat hd]
    exact (findFirst_eq pat s b a hf).symm

theorem filterListE_ok_of_true (f : AttrRec → Except Unit Bool) :
    ∀ l, (∀ a ∈ l, f a = .ok true) → filterListE f l = .ok l := by
  intro l
  induction l with
  | nil => intro _; rfl
  | cons a rest ih =>
    intro h
    have ha := h a (List.mem_cons_self a rest)
    have hr := ih fun x hx => h x (List.mem_cons_of_mem a hx)
    simp only [filterListE, ha, hr, except_bind_ok]
    rfl

theorem filterListE_ok_filter (f : AttrRec → Except Unit Bool) :
    ∀ l out, filterListE f l = .ok out →
      out = l.filter fun a => match f a with | .ok b => b | .error _ => true := by
  intro l
  induction l with
  | nil =>
    intro out h
    simp only [filterListE, Except.ok.injEq] at h
    subst h
    rfl
  | cons a rest ih =>
    intro out h
    rw [filterListE] at h
    cases hfa : f a with
    | error e => rw [hfa] at h; simp at h
    | ok b =>
      rw [hfa] at h
      cases hrest : filterListE f rest with
      | error e =>
        rw [hrest] at h
        simp at h
      | ok out' =>
        rw [hrest] at h
        simp only [except_bind_ok, except_pure, Except.ok.injEq] at h
        subst h
        rw [List.filter_cons, hfa]
        cases b <;> simp [ih out' hrest]

theorem filterAttributesE_of_keep_all (el : Element) (r : RuleSet)
    (h : ∀ a ∈ el.attributes, keepAttrE r el.nodeName el.attributes a = .ok true) :
    filterAttributesE el r =
      .ok ⟨el.nodeName, el.attributes,
        replaceFirst (joinRaws el.attributes) (joinRaws el.attributes) el.raw⟩ := by
  have hfa := filterListE_ok_of_true _ el.attributes h
  simp [filterAttributesE, hfa]

/-- When additionally the joined attribute raws contain no `$`, an
element all of whose attributes are kept is returned wholly intact. -/
theorem filterAttributesE_keep_all_no_dollar (el : Element) (r : RuleSet)
    (h : ∀ a ∈ el.attributes, keepAttrE r el.nodeName el.attributes a = .ok true)
    (hd : '$' ∉ joinRaws el.attributes) :
    filterAttributesE el r = .ok el := by
  rw [filterAttributesE_of_keep_all el r h, replaceFirst_self _ _ hd]

theorem rlookup_nil (k : Str) : rlookup [] k = none := rfl

theorem keepAttrE_nil (nd : Str) (ats : List AttrRec) (a : AttrRec) :
    keepAttrE [] nd ats a = .ok true := rfl

theorem filterAttributesE_nil_rules (el : Element)
    (hd : '$' ∉ joinRaws el.attributes) :
    filterAttributesE el [] = .ok el :=
  filterAttributesE_keep_all_no_dollar el [] (fun a _ => keepAttrE_nil _ _ a) hd

theorem foldlM_replace_fixed (r : RuleSet) :
    ∀ (els : List Element) (acc : Str),
      (∀ el ∈ els, filterAttributesE el r = .ok el ∧ '$' ∉ el.raw) →
      els.foldlM
        (fun acc el => do
          let fe ← filterAttributesE el r
          pure (replaceFirst el.raw fe.raw acc))
        acc = .ok acc := by
  intro els
  induction els with
  | nil => intro acc _; rfl
  | cons el rest ih =>
    intro acc h
    have hel := h el (List.mem_cons_self el rest)
    have hrest := fun x hx => h x (List.mem_cons_of_mem el hx)
    simp only [List.foldlM, hel.1, Except.bind, Bind.bind, pure, Except.pure,
      replaceFirst_self el.raw acc hel.2]
    exact ih acc hrest

/-- Any string whose parsed elements are all left intact by
`filterAttributes` and whose raw tags are dollar-free is a fixed point of
`filterHtmlAttrs`. -/
theorem filterHtmlAttrsE_fixed (t : Str) (r : RuleSet)
    (h : ∀ el ∈ parseElements t, filterAttributesE el r = .ok el ∧ '$' ∉ el.raw) :
    filterHtmlAttrsE t (some r) = .ok t := by
  simpa [filterHtmlAttrsE] using foldlM_replace_fixed r (parseElements t) t h

theorem foldlM_replace_isOk (r : RuleSet) :
    ∀ (els : List Element) (acc : Str),
      (∀ el ∈ els, ∃ el', filterAttributesE el r = .ok el') →
      isOkE
        (els.foldlM
          (fun acc el => do
            let fe ← filterAttributesE el r
            pure (replaceFirst el.raw fe.raw acc))
          acc) = true := by
  intro els
  induction els with
  | nil => intro acc _; rfl
  | cons el rest ih =>
    intro acc h
    obtain ⟨el', hel'⟩ := h el (List.mem_cons_self el rest)
    simp only [List.foldlM, hel', Except.bind, Bind.bind, pure, Except.pure,
      except_bind_ok]
    exact ih _ fun x hx => h x (List.mem_cons_of_mem el hx)

theorem stripSlash_head (c : Str) : (stripSlash c).head? = c.head? := by
  rw [stripSlash]
  split
  · next hlen =>
    split
    · next _ =>
      match c, hlen with
      | a :: b :: t, _ => simp [List.dropLast]
    · rfl
  · rfl

/-- Every pair emitted by the tag scanner is a full bracketed match
`<` ++ content ++ `>` with non-empty content, paired with its group-1
text. -/
theorem tagScanAux_shape :
    ∀ (s : Str) (st : Option Str) (p : Str × Str), p ∈ tagScanAux st s →
      ∃ c0 : Str, c0 ≠ [] ∧ p.1 = '<' :: c0 ++ ['>'] ∧ p.2 = stripSlash c0 := by
  intro s
  induction s with
  | nil => intro st p hp; simp [tagScanAux] at hp
  | cons c rest ih =>
    intro st p hp
    match st with
    | none =>
      rw [tagScanAux] at hp
      split at hp
      · exact ih _ p hp
      · exact ih _ p hp
    | some acc =>
      rw [tagScanAux] at hp
      split at hp
      · split at hp
        · exact ih _ p hp
        · next hacc =>
          rcases List.mem_cons.mp hp with heq | hmem
          · exact ⟨acc, hacc, by rw [heq], by rw [heq]⟩
          · exact ih _ p hmem
      · exact ih _ p hp

/-- No element produced by `parseElements` comes from a closing tag: its
raw text never starts with the two characters `</`. -/
theorem parseElements_no_closing (s : Str) (el : Element)
    (hel : el ∈ parseElements s) : ¬ ("</".data <+: el.raw) := by
  intro habs
  rw [parseElements] at hel
  obtain ⟨p, hp, hkeep⟩ := List.mem_filterMap.mp hel
  obtain ⟨c0, hc0ne, hm, hg⟩ := tagScanAux_shape s none p hp
  split at hkeep
  · exact Option.noConfusion hkeep
  · next hslash =>
    injection hkeep with hkeep'
    have hraw : el.raw = p.1 := by rw [← hkeep']
    rw [hraw, hm] at habs
    have hd : "</".data = ['<', '/'] := rfl
    rw [hd] at habs
    match c0, hc0ne with
    | a :: c0t, _ =>
      have h1 := (List.cons_prefix_cons.mp habs).2
      have h2 : a = '/' := by
        have h3 := (List.cons_prefix_cons.mp (show '/' :: [] <+: a :: (c0t ++ ['>']) by
          simpa using h1)).1
        exact h3.symm
      have hh : (stripSlash (a :: c0t)).head? = some '/' := by
        rw [stripSlash_head]
        simp [h2]
      rw [hg] at hslash
      exact hslash hh

/-! ### Character provenance: every character of a parsed element comes
from the input (or is one of the brackets added around the match), so a
dollar-free input yields dollar-free raws and joins. -/

theorem mem_stripSlash {c : Char} {l : Str} (h : c ∈ stripSlash l) : c ∈ l := by
  rw [stripSlash] at h
  split at h
  · split at h
    · exact (List.dropLast_sublist l).subset h
    · exact h
  · exact h

theorem mem_trimWs {c : Char} {l : Str} (h : c ∈ trimWs l) : c ∈ l := by
  rw [trimWs] at h
  have h1 := List.mem_reverse.mp h
  have h2 := (List.dropWhile_sublist _).subset h1
  have h3 := List.mem_reverse.mp h2
  exact (List.dropWhile_sublist _).subset h3

theorem tagScanAux_match_chars :
    ∀ (s : Str) (st : Option Str) (p : Str × Str), p ∈ tagScanAux st s →
      ∀ c : Char, c ∈ p.1 →
        c = '<' ∨ c = '>' ∨ c ∈ s ∨ ∃ acc, st = some acc ∧ c ∈ acc := by
  intro s
  induction s with
  | nil => intro st p hp; simp [tagScanAux] at hp
  | cons ch rest ih =>
    intro st p hp c hc
    match st with
    | none =>
      rw [tagScanAux] at hp
      split at hp
      · rcases ih _ p hp c hc with h | h | h | ⟨acc, hacc, hm⟩
        · exact Or.inl h
        · exact Or.inr (Or.inl h)
        · exact Or.inr (Or.inr (Or.inl (List.mem_cons_of_mem ch h)))
        · injection hacc with hacc
          rw [← hacc] at hm
          exact absurd hm (by simp)
      · rcases ih _ p hp c hc with h | h | h | ⟨acc, hacc, hm⟩
        · exact Or.inl h
        · exact Or.inr (Or.inl h)
        · exact Or.inr (Or.inr (Or.inl (List.mem_cons_of_mem ch h)))
        · exact Option.noConfusion hacc
    | some acc =>
      rw [tagScanAux] at hp
      split at hp
      · split at hp
        · rcases ih _ p hp c hc with h | h | h | ⟨acc2, hacc, hm⟩
          · exact Or.inl h
          · exact Or.inr (Or.inl h)
          · exact Or.inr (Or.inr (Or.inl (List.mem_cons_of_mem ch h)))
          · exact Option.noConfusion hacc
        · rcases List.mem_cons.mp hp with heq | hmem
          · rw [heq] at hc
            rcases List.mem_cons.mp hc with he | hm
            · exact Or.inl he
            · rcases List.mem_append.mp hm with hm | hm
              · exact Or.inr (Or.inr (Or.inr ⟨acc, rfl, hm⟩))
              · exact Or.inr (Or.inl (by simpa using hm))
          · rcases ih _ p hmem c hc with h | h | h | ⟨acc2, hacc, hm⟩
            · exact Or.inl h
            · exact Or.inr (Or.inl h)
            · exact Or.inr (Or.inr (Or.inl (List.mem_cons_of_mem ch h)))
            · exact Option.noConfusion hacc
      · rcases ih _ p hp c hc with h | h | h | ⟨acc2, hacc, hm⟩
        · exact Or.inl h
        · exact Or.inr (Or.inl h)
        · exact Or.inr (Or.inr (Or.inl (List.mem_cons_of_mem ch h)))
        · injection hacc with hacc
          rw [← hacc] at hm
          rcases List.mem_append.mp hm with hm | hm
          · exact Or.inr (Or.inr (Or.inr ⟨acc, rfl, hm⟩))
          · have hceq : c = ch := by simpa using hm
            exact Or.inr (Or.inr (Or.inl (by rw [hceq]; exact List.mem_cons_self ch rest)))

theorem tagScanAux_group_chars :
    ∀ (s : Str) (st : Option Str) (p : Str × Str), p ∈ tagScanAux st s →
      ∀ c : Char, c ∈ p.2 → c ∈ s ∨ ∃ acc, st = some acc ∧ c ∈ acc := by
  intro s
  induction s with
  | nil => intro st p hp; simp [tagScanAux] at hp
  | cons ch rest ih =>
    intro st p hp c hc
    match st with
    | none =>
      rw [tagScanAux] at hp
      split at hp
      · rcases ih _ p hp c hc with h | ⟨acc, hacc, hm⟩
        · exact Or.inl (List.mem_cons_of_mem ch h)
        · injection hacc with hacc
          rw [← hacc] at hm
          exact absurd hm (by simp)
      · rcases ih _ p hp c hc with h | ⟨acc, hacc, hm⟩
        · exact Or.inl (List.mem_cons_of_mem ch h)
        · exact Option.noConfusion hacc
    | some acc =>
      rw [tagScanAux] at hp
      split at hp
      · split at hp
        · rcases ih _ p hp c hc with h | ⟨acc2, hacc, hm⟩
          · exact Or.inl (List.mem_cons_of_mem ch h)
          · exact Option.noConfusion hacc
        · rcases List.mem_cons.mp hp with heq | hmem
          · rw [heq] at hc
            exact Or.inr ⟨acc, rfl, mem_stripSlash hc⟩
          · rcases ih _ p hmem c hc with h | ⟨acc2, hacc, hm⟩
            · exact Or.inl (List.mem_cons_of_mem ch h)
            · exact Option.noConfusion hacc
      · rcases ih _ p hp c hc with h | ⟨acc2, hacc, hm⟩
        · exact Or.inl (List.mem_cons_of_mem ch h)
        · injection hacc with hacc
          rw [← hacc] at hm
          rcases List.mem_append.mp hm with hm | hm
          · exact Or.inr ⟨acc, rfl, hm⟩
          · have hceq : c = ch := by simpa using hm
            exact Or.inl (by rw [hceq]; exact List.mem_cons_self ch rest)

theorem tryAlt1_chars (s : Str) (raw name v rest' : Str)
    (h : tryAlt1 s = some (raw, name, v, rest')) :
    (∀ c ∈ raw, c ∈ s) ∧ ∀ c ∈ rest', c ∈ s := by
  have hrun : ∀ c ∈ s.takeWhile fun c => !isWs c && c != '=', c ∈ s :=
    fun c hc => (List.takeWhile_sublist _).subset hc
  simp only [tryAlt1] at h
  split at h
  · exact absurd h (by simp)
  · split at h
    case h_2 => exact absurd h (by simp)
    case h_1 rest2 heq =>
      split at h
      case h_1 =>
        -- rest2 = '"' :: rest3, the double-quoted branch
        rename_i rest3
        have hmem2 : ∀ c ∈ '=' :: '"' :: rest3, c ∈ s := by
          rw [← heq]
          exact fun c hc => (List.dropWhile_sublist _).subset hc
        have heqmem : ('=' : Char) ∈ s := hmem2 '=' (by simp)
        have hq : ('"' : Char) ∈ s := hmem2 '"' (by simp)
        have hrest3 : ∀ c ∈ rest3, c ∈ s := fun c hc =>
          hmem2 c (List.mem_cons_of_mem _ (List.mem_cons_of_mem _ hc))
        have hv : ∀ c ∈ rest3.takeWhile fun c => c != '"', c ∈ s :=
          fun c hc => hrest3 c ((List.takeWhile_sublist _).subset hc)
        split at h
        case h_1 rest5 heq3 =>
          have hrest5 : ∀ c ∈ rest5, c ∈ s := fun c hc =>
            hrest3 c ((List.dropWhile_sublist _).subset
              (by rw [heq3]; exact List.mem_cons_of_mem _ hc))
          simp only [Option.some.injEq, Prod.mk.injEq] at h
          obtain ⟨h1, _, _, h4⟩ := h
          refine ⟨fun c hc => ?_, fun c hc => ?_⟩
          · rw [← h1] at hc
            rcases List.mem_append.mp hc with hc | hc
            · rcases List.mem_append.mp hc with hc | hc
              · exact hrun c hc
              · rcases List.mem_cons.mp hc with hc | hc
                · exact hc ▸ heqmem
                · rcases List.mem_cons.mp hc with hc | hc
                  · exact hc ▸ hq
                  · exact hv c hc
            · have hce : c = '"' := by simpa using hc
              exact hce ▸ hq
          · rw [← h4] at hc
            exact hrest5 c hc
        case h_2 =>
          simp only [Option.some.injEq, Prod.mk.injEq] at h
          obtain ⟨h1, _, _, h4⟩ := h
          refine ⟨fun c hc => ?_, fun c hc => ?_⟩
          · rw [← h1] at hc
            rcases List.mem_append.mp hc with hc | hc
            · exact hrun c hc
            · have hce : c = '=' := by simpa using hc
              exact hce ▸ heqmem
          · rw [← h4] at hc
            rcases List.mem_cons.mp hc with hc | hc
            · exact hc ▸ hq
            · exact hrest3 c hc
      case h_2 =>
        -- rest2 = '\'' :: rest3, the single-quoted branch
        rename_i rest3
        have hmem2 : ∀ c ∈ '=' :: '\'' :: rest3, c ∈ s := by
          rw [← heq]
          exact fun c hc => (List.dropWhile_sublist _).subset hc
        have heqmem : ('=' : Char) ∈ s := hmem2 '=' (by simp)
        have hq : ('\'' : Char) ∈ s := hmem2 '\'' (by simp)
        have hrest3 : ∀ c ∈ rest3, c ∈ s := fun c hc =>
          hmem2 c (List.mem_cons_of_mem _ (List.mem_cons_of_mem _ hc))
        have hv : ∀ c ∈ rest3.takeWhile fun c => c != '\'', c ∈ s :=
          fun c hc => hrest3 c ((List.takeWhile_sublist _).subset hc)
        split at h
        case h_1 rest5 heq3 =>
          have hrest5 : ∀ c ∈ rest5, c ∈ s := fun c hc =>
            hrest3 c ((List.dropWhile_sublist _).subset
              (by rw [heq3]; exact List.mem_cons_of_mem _ hc))
          simp only [Option.some.injEq, Prod.mk.injEq] at h
          obtain ⟨h1, _, _, h4⟩ := h
          refine ⟨fun c hc => ?_, fun c hc => ?_⟩
          · rw [← h1] at hc
            rcases List.mem_append.mp hc with hc | hc
            · rcases List.mem_append.mp hc with hc | hc
              · exact hrun c hc
              · rcases List.mem_cons.mp hc with hc | hc
                · exact hc ▸ heqmem
                · rcases List.mem_cons.mp hc with hc | hc
                  · exact hc ▸ hq
                  · exact hv c hc
            · have hce : c = '\'' := by simpa using hc
              exact hce ▸ hq
          · rw [← h4] at hc
            exact hrest5 c hc
        case h_2 =>
          simp only [Option.some.injEq, Prod.mk.injEq] at h
          obtain ⟨h1, _, _, h4⟩ := h
          refine ⟨fun c hc => ?_, fun c hc => ?_⟩
          · rw [← h1] at hc
            rcases List.mem_append.mp hc with hc | hc
            · exact hrun c hc
            · have hce : c = '=' := by simpa using hc
              exact hce ▸ heqmem
          · rw [← h4] at hc
            rcases List.mem_cons.mp hc with hc | hc
            · exact hc ▸ hq
            · exact hrest3 c hc
      case h_3 =>
        -- the unquoted branch
        have hmem2 : ∀ c ∈ '=' :: rest2, c ∈ s := by
          rw [← heq]
          exact fun c hc => (List.dropWhile_sublist _).subset hc
        have heqmem : ('=' : Char) ∈ s := hmem2 '=' (by simp)
        have hrest2 : ∀ c ∈ rest2, c ∈ s :=
          fun c hc => hmem2 c (List.mem_cons_of_mem _ hc)
        have hv : ∀ c ∈ rest2.takeWhile
            fun c => !isWs c && c != '"' && c != '\'', c ∈ s :=
          fun c hc => hrest2 c ((List.takeWhile_sublist _).subset hc)
        have hrem : ∀ c ∈ rest2.dropWhile
            fun c => !isWs c && c != '"' && c != '\'', c ∈ s :=
          fun c hc => hrest2 c ((List.dropWhile_sublist _).subset hc)
        simp only [Option.some.injEq, Prod.mk.injEq] at h
        obtain ⟨h1, _, _, h4⟩ := h
        refine ⟨fun c hc => ?_, fun c hc => ?_⟩
        · rw [← h1] at hc
          rcases List.mem_append.mp hc with hc | hc
          · exact hrun c hc
          · rcases List.mem_cons.mp hc with hc | hc
            · exact hc ▸ heqmem
            · exact hv c hc
        · rw [← h4] at hc
          exact hrem c hc

theorem attrScanF_chars :
    ∀ (fuel : Nat) (pc : Option Char) (l : Str) (a : AttrRec),
      a ∈ attrScanF fuel pc l → ∀ c ∈ a.raw, c ∈ l := by
  intro fuel
  induction fuel with
  | zero => intro pc l a ha; simp [attrScanF] at ha
  | succ fuel ih =>
    intro pc l a ha c hc
    match l with
    | [] => simp [attrScanF] at ha
    | ch :: rest =>
      rw [attrScanF] at ha
      split at ha
      case h_1 raw2 name2 value2 rest2 heq =>
        rcases List.mem_cons.mp ha with heqa | hmem
        · rw [heqa] at hc
          exact (tryAlt1_chars _ _ _ _ _ heq).1 c hc
        · exact (tryAlt1_chars _ _ _ _ _ heq).2 c (ih _ rest2 a hmem c hc)
      case h_2 heq =>
        split at ha
        · rcases List.mem_cons.mp ha with heqa | hmem
          · rw [heqa] at hc
            exact (List.takeWhile_sublist _).subset
              (show c ∈ (ch :: rest).takeWhile fun x => !isWs x from hc)
          · exact (List.dropWhile_sublist _).subset (ih _ _ a hmem c hc)
        · exact List.mem_cons_of_mem ch (ih _ _ a ha c hc)

theorem joinRaws_chars :
    ∀ (l : List AttrRec) (c : Char), c ∈ joinRaws l →
      c = ' ' ∨ ∃ a ∈ l, c ∈ a.raw
  | [], c, h => absurd h (by simp [joinRaws])
  | [a], c, h => Or.inr ⟨a, by simp, by simpa [joinRaws] using h⟩
  | a :: b :: t, c, h => by
    have hJ : joinRaws (a :: b :: t) = a.raw ++ ' ' :: joinRaws (b :: t) := rfl
    rw [hJ] at h
    rcases List.mem_append.mp h with h1 | h2
    · exact Or.inr ⟨a, by simp, h1⟩
    · rcases List.mem_cons.mp h2 with he | h3
      · exact Or.inl he
      · rcases joinRaws_chars (b :: t) c h3 with h4 | ⟨x, hx, hcx⟩
        · exact Or.inl h4
        · exact Or.inr ⟨x, List.mem_cons_of_mem a hx, hcx⟩

theorem parseElements_raw_chars (s : Str) (el : Element)
    (hel : el ∈ parseElements s) (c : Char) (hc : c ∈ el.raw) :
    c = '<' ∨ c = '>' ∨ c ∈ s := by
  rw [parseElements] at hel
  obtain ⟨p, hp, hkeep⟩ := List.mem_filterMap.mp hel
  split at hkeep
  · exact Option.noConfusion hkeep
  · injection hkeep with hk
    have hraw : el.raw = p.1 := by rw [← hk]
    rw [hraw] at hc
    rcases tagScanAux_match_chars s none p hp c hc with h | h | h | ⟨_, hacc, _⟩
    · exact Or.inl h
    · exact Or.inr (Or.inl h)
    · exact Or.inr (Or.inr h)
    · exact Option.noConfusion hacc

theorem parseElements_attr_chars (s : Str) (el : Element)
    (hel : el ∈ parseElements s) (a : AttrRec) (ha : a ∈ el.attributes)
    (c : Char) (hc : c ∈ a.raw) : c ∈ s := by
  rw [parseElements] at hel
  obtain ⟨p, hp, hkeep⟩ := List.mem_filterMap.mp hel
  split at hkeep
  · exact Option.noConfusion hkeep
  · injection hkeep with hk
    have hattr : el.attributes =
        attrScan (trimWs ((p.2.dropWhile fun c => c ≠ ' ').drop 1)) := by
      rw [← hk]
    rw [hattr] at ha
    have h1 := attrScanF_chars _ _ _ a ha c hc
    have h2 := mem_trimWs h1
    have h3 := List.drop_subset _ _ h2
    have h4 := (List.dropWhile_sublist _).subset h3
    rcases tagScanAux_group_chars s none p hp c h4 with h | ⟨_, hacc, _⟩
    · exact h
    · exact Option.noConfusion hacc

/-- In a dollar-free input every parsed element has a dollar-free raw tag
and a dollar-free attribute join. -/
theorem parseElements_no_dollar (s : Str) (hd : '$' ∉ s) (el : Element)
    (hel : el ∈ parseElements s) :
    '$' ∉ el.raw ∧ '$' ∉ joinRaws el.attributes := by
  constructor
  · intro hc
    rcases parseElements_raw_chars s el hel '$' hc with h | h | h
    · exact absurd h (by decide)
    · exact absurd h (by decide)
    · exact hd h
  · intro hc
    rcases joinRaws_chars el.attributes '$' hc with h | ⟨a, ha, hca⟩
    · exact absurd h (by decide)
    · exact hd (parseElements_attr_chars s el hel a ha '$' hca)

theorem truthy_objInit (nd : Str) (nn : Option Str) :
    (objInit nd nn).truthy = nodeNameConj nd nn := by
  match nn with
  | none => rfl
  | some s =>
    rw [objInit, nodeNameConj]
    by_cases h : s.isEmpty
    · simp [h, MRes.truthy]
    · simp [h, truthy_ofBool]

theorem matchesList_truthy (nd : Str) (ats : List AttrRec) :
    ∀ (ps : List (Str × Matcher)) (fl : MRes),
      (matchesList nd ats fl ps).truthy = (fl.truthy && ps.all (subAttrConj nd ats)) := by
  intro ps
  induction ps with
  | nil => intro fl; simp [matchesList]
  | cons p rest ih =>
    intro fl
    obtain ⟨an, m⟩ := p
    rw [matchesList]
    cases hf : ats.find? fun a => a.name == an with
    | none =>
      rw [ih, List.all_cons]
      rw [show subAttrConj nd ats (an, m) = true by rw [subAttrConj, hf]]
      simp
    | some attr =>
      rw [ih, truthy_jsAnd, List.all_cons]
      rw [show subAttrConj nd ats (an, m) = (jsMatches nd ats attr.value m).truthy by
        rw [subAttrConj, hf]]
      simp [Bool.and_assoc]

/-- Truthiness of `matches` on a structured matcher equals the conjunction
described by (amended) claim C3. -/
theorem jsMatches_obj_truthy (nd : Str) (ats : List AttrRec) (v : Str)
    (nn : Option Str) (ps : Option (List (Str × Matcher))) :
    (jsMatches nd ats v (.obj nn ps)).truthy =
      (nodeNameConj nd nn && (ps.getD []).all (subAttrConj nd ats)) := by
  match ps with
  | none =>
    rw [show jsMatches nd ats v (.obj nn none) = objInit nd nn from rfl]
    simp [Option.getD, truthy_objInit]
  | some pairs =>
    rw [show jsMatches nd ats v (.obj nn (some pairs)) =
      matchesList nd ats (objInit nd nn) pairs from rfl]
    simp [Option.getD, matchesList_truthy, truthy_objInit]

theorem resolveKey_eq (n : Str) :
    resolveKey n =
      if n = "for".data then "htmlFor".data
      else if n = "class".data then "className".data
      else n := by
  rw [resolveKey, attrMap]
  by_cases h1 : n = "for".data
  · subst h1; rfl
  · by_cases h2 : n = "class".data
    · subst h2; rfl
    · have b1 : (n == "for".data) = false := beq_eq_false_iff_ne.mpr h1
      have b2 : (n == "class".data) = false := beq_eq_false_iff_ne.mpr h2
      simp [List.lookup, b1, b2, h1, h2]

theorem keepAttrE_of_harmless (r : RuleSet) (nd : Str) (ats : List AttrRec)
    (a : AttrRec) (h : harmlessLookup r a.name = true) :
    keepAttrE r nd ats a = .ok true := by
  rw [harmlessLookup] at h
  rw [keepAttrE]
  cases hl : rlookup r (resolveKey a.name) with
  | none => rfl
  | some m =>
    rw [hl] at h
    unfold harmless at h
    cases m with
    | bool b =>
      have hb : b = false := by simpa [Matcher.truthy] using h
      subst hb
      rfl
    | str s =>
      have hs : s.isEmpty = true := by simpa [Matcher.truthy] using h
      simp [Matcher.truthy, hs]
    | num k =>
      by_cases hk : k = 0
      · simp [Matcher.truthy, hk]
      · have hj : jsMatches nd ats a.value (.num k) = .undef := rfl
        simp [Matcher.truthy, hk, hj, MRes.truthy]
    | fn =>
      have hj : jsMatches nd ats a.value .fn = .undef := rfl
      simp [Matcher.truthy, hj, MRes.truthy]
    | null => rfl
    | arr xs => simp [Matcher.truthy] at h
    | obj nn ps => simp [Matcher.truthy] at h

/-! ### The claims -/

/-- Claim C1 (counterexample): with the non-empty rule set
`{data-x: false}`, a matcher is registered under the alias-resolved
name of the attribute and `matches(nodeName, attributes, value, matcher)`
evaluates to `true` (any boolean matcher returns `true`), yet the
attribute is kept: `filterHtmlAttrs` returns the input unchanged, because
the falsy-matcher check keeps the attribute before the predicate runs.
The claim predicts the attribute is dropped. -/
theorem C1_counterexample :
    rlookup [("data-x".data, Matcher.bool false)] (resolveKey "data-x".data) =
        some (Matcher.bool false) ∧
    jsMatches "div".data [⟨"data-x".data, "y".data, "data-x=\"y\"".data⟩]
        "y".data (Matcher.bool false) = .tt ∧
    filterHtmlAttrsE "<div data-x=\"y\">t</div>".data
        (some [("data-x".data, Matcher.bool false)]) =
      .ok "<div data-x=\"y\">t</div>".data :=
  ⟨rfl, rfl, by decide⟩

/-- Claim C1 (amended): whenever `filterAttributes` succeeds, an attribute
of the element is kept iff no matcher is registered under its
alias-resolved name, or the registered matcher is falsy, or the matcher
does not evaluate to `true` — i.e. the surviving attribute list is the
filter of the original list by `keepSpecB`. -/
theorem C1_amended (el : Element) (r : RuleSet) (el' : Element)
    (h : filterAttributesE el r = .ok el') :
    el'.attributes = el.attributes.filter (keepSpecB r el.nodeName el.attributes) := by
  rw [filterAttributesE] at h
  cases hfa : filterListE (keepAttrE r el.nodeName el.attributes) el.attributes with
  | error e => rw [hfa] at h; simp at h
  | ok fa =>
    rw [hfa] at h
    simp only [except_bind_ok, except_pure, Except.ok.injEq] at h
    have hout := filterListE_ok_filter _ _ _ hfa
    have hattr : el'.attributes = fa := by rw [← h]
    rw [hattr, hout]
    refine List.filter_congr fun a _ => ?_
    rw [keepAttrE, keepSpecB]
    cases hl : rlookup r (resolveKey a.name) with
    | none => rfl
    | some m =>
      by_cases ht : m.truthy
      · cases hj : jsMatches el.nodeName el.attributes a.value m <;>
          simp [ht, hj, MRes.truthy]
      · simp [ht]

/-- Claim C1 (witness for the amended theorem): on the example element
with the rule `{data-x: true}`, `filterAttributes` succeeds and the
surviving attributes are exactly the `keepSpecB` filter (here: none). -/
theorem C1_amended_witness :
    (⟨"div".data, [], "<div >".data⟩ : Element).attributes =
      exElem.attributes.filter
        (keepSpecB [("data-x".data, Matcher.bool true)] exElem.nodeName
          exElem.attributes) :=
  C1_amended exElem [("data-x".data, Matcher.bool true)]
    ⟨"div".data, [], "<div >".data⟩ (by decide)

/-- Claim C2 (counterexample): the example does not return
`<div>t</div>`; the space that separated the node name from the removed
attribute is not part of the replaced substring, so it survives. -/
theorem C2_counterexample :
    filterHtmlAttrsE "<div data-x=\"y\">t</div>".data
        (some [("data-x".data, Matcher.bool true)]) ≠
      .ok "<div>t</div>".data := by decide

/-- Claim C2 (amended): the boolean-true matcher removes the attribute
regardless of its value, but a residual space remains before `>`:
`filterHtmlAttrs` on `<div data-x="y">t</div>` with `{data-x: true}`
returns exactly `<div >t</div>`. -/
theorem C2_amended :
    filterHtmlAttrsE "<div data-x=\"y\">t</div>".data
        (some [("data-x".data, Matcher.bool true)]) =
      .ok "<div >t</div>".data := by decide

/-- Claim C3 (counterexample): a structured matcher whose `nodeName` key
is present but holds the empty string is skipped by the truthiness guard,
so `matches` returns `true` on a `div` element even though the conjunct
`matcher.nodeName = element.nodeName` required by the claim is false; consequently the
matcher drops the attribute of a `div`. -/
theorem C3_counterexample :
    jsMatches "div".data [] "v".data (Matcher.obj (some []) none) = .tt ∧
    (([] : Str) == "div".data) = false ∧
    filterHtmlAttrsE "<div data-x=\"y\">t</div>".data
        (some [("data-x".data, Matcher.obj (some []) none)]) =
      .ok "<div >t</div>".data :=
  ⟨rfl, by decide, by decide⟩

/-- Claim C3 (amended): for every element and structured matcher,
`matches` is truthy iff the conjunction holds of (i) when the matcher has
a non-empty `nodeName` key, that it equals the node name of the element,
and (ii) for each entry of the `attributes` mapping of the matcher whose
named sub-attribute exists on the element, that the value of the found
attribute
recursively satisfies the nested matcher; entries whose sub-attribute is
missing are skipped rather than failing the conjunction. -/
theorem C3_amended (nd : Str) (ats : List AttrRec) (v : Str)
    (nn : Option Str) (ps : Option (List (Str × Matcher))) :
    (jsMatches nd ats v (.obj nn ps)).truthy =
      (nodeNameConj nd nn && (ps.getD []).all (subAttrConj nd ats)) :=
  jsMatches_obj_truthy nd ats v nn ps

/-- Claim C4 (counterexample): the empty rule set is not the identity on
every string.  On `<div a="$$">` every attribute is kept and the raw tag
is replaced by itself, but `String.replace` applies `GetSubstitution` to
the replacement, collapsing `$$` to `$`: the output is `<div a="$">`. -/
theorem C4_counterexample :
    filterHtmlAttrsE "<div a=\"$$\">".data (some []) =
      .ok "<div a=\"$\">".data ∧
    "<div a=\"$\">".data ≠ "<div a=\"$$\">".data :=
  ⟨by decide, by decide⟩

/-- Claim C4 (amended): an absent rule set is the identity transform of
any html string, and the empty rule set is the identity on every string
that contains no `$` character (on a string with `$` the self-replacement
of each tag can rewrite dollar sequences in the replacement text). -/
theorem C4_amended (s : Str) :
    filterHtmlAttrsE s none = .ok s ∧
    ('$' ∉ s → filterHtmlAttrsE s (some []) = .ok s) := by
  refine ⟨rfl, fun hd => ?_⟩
  exact filterHtmlAttrsE_fixed s [] fun el hel =>
    ⟨filterAttributesE_nil_rules el (parseElements_no_dollar s hd el hel).2,
     (parseElements_no_dollar s hd el hel).1⟩

/-- Claim C4 (witness for the amended theorem): on the dollar-free example
string the empty rule set is the identity. -/
theorem C4_amended_witness :
    filterHtmlAttrsE "<div data-x=\"y\">t</div>".data (some []) =
      .ok "<div data-x=\"y\">t</div>".data :=
  (C4_amended "<div data-x=\"y\">t</div>".data).2 (by decide)

/-- Claim C5: rule lookup applies the alias table forward only.  The
resolved lookup key maps `for` to `htmlFor` and `class` to `className`
and leaves every other attribute name verbatim; behaviourally, a rule
keyed `htmlFor` (resp. `className`) removes the `for` (resp. `class`)
attribute while a rule keyed literally `for` (resp. `class`) leaves it
untouched. -/
theorem C5_alias :
    (∀ n : Str, resolveKey n =
      if n = "for".data then "htmlFor".data
      else if n = "class".data then "className".data
      else n) ∧
    filterHtmlAttrsE "<label for=\"a\">x</label>".data
        (some [("htmlFor".data, Matcher.bool true)]) =
      .ok "<label >x</label>".data ∧
    filterHtmlAttrsE "<label for=\"a\">x</label>".data
        (some [("for".data, Matcher.bool true)]) =
      .ok "<label for=\"a\">x</label>".data ∧
    filterHtmlAttrsE "<div class=\"a\">x</div>".data
        (some [("className".data, Matcher.bool true)]) =
      .ok "<div >x</div>".data ∧
    filterHtmlAttrsE "<div class=\"a\">x</div>".data
        (some [("class".data, Matcher.bool true)]) =
      .ok "<div class=\"a\">x</div>".data :=
  ⟨resolveKey_eq, by decide, by decide, by decide, by decide⟩

/-- Claim C6 (counterexample): filtering twice differs from filtering
once.  With rules `{a: true, b: {attributes: {a: 'x'}}}` on
`<div a="q" b="y">t</div>`, the first pass removes `a` (value `q` does
not satisfy the nested matcher, so `b` stays); the second pass no longer
finds `a`, the single conjunct of the structured matcher is skipped, the flag
stays `true`, and `b` is removed as well. -/
theorem C6_counterexample :
    filterHtmlAttrsE "<div a=\"q\" b=\"y\">t</div>".data
        (some [("a".data, Matcher.bool true),
               ("b".data, Matcher.obj none (some [("a".data, Matcher.str "x".data)]))]) =
      .ok "<div b=\"y\">t</div>".data ∧
    filterHtmlAttrsE "<div b=\"y\">t</div>".data
        (some [("a".data, Matcher.bool true),
               ("b".data, Matcher.obj none (some [("a".data, Matcher.str "x".data)]))]) =
      .ok "<div >t</div>".data ∧
    "<div >t</div>".data ≠ "<div b=\"y\">t</div>".data :=
  ⟨by decide, by decide, by decide⟩

/-- Claim C6 (amended): applying the rule set a second time yields the
same string provided the second pass leaves every parsed element of the
once-filtered string intact and the string contains no `$` character;
equivalently, any dollar-free string from whose parsed elements the rule
set removes nothing is a fixed point of `filterHtmlAttrs`.  Unconditional
idempotence fails because a structured matcher referencing an attribute
removed in the first pass treats the missing sub-attribute as a skipped
conjunct; on strings with `$` even a removal-free pass can rewrite the
text via the replacement dollar sequences. -/
theorem C6_amended (t : Str) (r : RuleSet) (hd : '$' ∉ t)
    (h : ∀ el ∈ parseElements t, filterAttributesE el r = .ok el) :
    filterHtmlAttrsE t (some r) = .ok t :=
  filterHtmlAttrsE_fixed t r fun el hel =>
    ⟨h el hel, (parseElements_no_dollar t hd el hel).1⟩

/-- Claim C6 (witness): the once-filtered string of the counterexample is
a fixed point of the same rule set. -/
theorem C6_amended_witness :
    filterHtmlAttrsE "<div >t</div>".data
        (some [("a".data, Matcher.bool true),
               ("b".data, Matcher.obj none (some [("a".data, Matcher.str "x".data)]))]) =
      .ok "<div >t</div>".data :=
  C6_amended "<div >t</div>".data
    [("a".data, Matcher.bool true),
     ("b".data, Matcher.obj none (some [("a".data, Matcher.str "x".data)]))]
    (by decide) (by decide)

/-- Claim C7 (counterexample): a closing-tag substring of the input can be
altered in the output.  In `</a <b x><b x>` with rule `{x: true}`, the
only element is the second `<b x>`, but its raw text also occurs inside
the closing-tag match `</a <b x>`, and `replace` rewrites that first
occurrence: the output is `</a <b ><b x>`, in which the closing-tag text
`</a <b x>` no longer occurs. -/
theorem C7_counterexample :
    filterHtmlAttrsE "</a <b x><b x>".data (some [("x".data, Matcher.bool true)]) =
      .ok "</a <b ><b x>".data ∧
    "</a <b x>".data <:+: "</a <b x><b x>".data ∧
    ¬ ("</a <b x>".data <:+: "</a <b ><b x>".data) :=
  ⟨by decide, by decide, by decide⟩

/-- Claim C7 (amended): `parseElements` never produces an Element for a
closing tag — the raw text of a parsed element never starts with `</` —
and on the example of the spec the closing tag `</div>` survives exactly
as written;
however the `replace`-based splicing does not in general guarantee that
closing-tag substrings are untouched. -/
theorem C7_amended :
    (∀ (s : Str) (el : Element), el ∈ parseElements s → ¬ ("</".data <+: el.raw)) ∧
    filterHtmlAttrsE "<div data-x=\"y\">t</div>".data
        (some [("data-x".data, Matcher.bool true)]) =
      .ok "<div >t</div>".data ∧
    "</div>".data <:+ "<div >t</div>".data :=
  ⟨parseElements_no_closing, by decide, ⟨"<div >t".data, rfl⟩⟩

/-- Claim C7 (witness): the example element is produced by `parseElements`
and its raw text does not start with `</`. -/
theorem C7_amended_witness :
    ¬ ("</".data <+: exElem.raw) :=
  C7_amended.1 "<div data-x=\"y\">t</div>".data exElem (by decide)

/-- Claim C8: when the rule governing every attribute of every parsed
element is either absent, falsy (false, null, 0, the empty string — an
absent key models `undefined`), or of an unrecognized non-object type (a
number or a function), `filterHtmlAttrs` keeps every attribute of every
element and raises no fault; on a dollar-free input the whole string is
returned unchanged. -/
theorem C8_harmless (s : Str) (r : RuleSet)
    (h : ∀ el ∈ parseElements s, ∀ a ∈ el.attributes,
      harmlessLookup r a.name = true) :
    (∀ el ∈ parseElements s,
      Except.map Element.attributes (filterAttributesE el r) = .ok el.attributes) ∧
    isOkE (filterHtmlAttrsE s (some r)) = true ∧
    ('$' ∉ s → filterHtmlAttrsE s (some r) = .ok s) := by
  have hk : ∀ el ∈ parseElements s, filterAttributesE el r =
      .ok ⟨el.nodeName, el.attributes,
        replaceFirst (joinRaws el.attributes) (joinRaws el.attributes) el.raw⟩ :=
    fun el hel => filterAttributesE_of_keep_all el r fun a ha =>
      keepAttrE_of_harmless r el.nodeName el.attributes a (h el hel a ha)
  refine ⟨fun el hel => ?_, ?_, fun hd => ?_⟩
  · rw [hk el hel]
    rfl
  · rw [show filterHtmlAttrsE s (some r) =
        (parseElements s).foldlM
          (fun acc el => do
            let fe ← filterAttributesE el r
            pure (replaceFirst el.raw fe.raw acc))
          s from rfl]
    exact foldlM_replace_isOk r (parseElements s) s fun el hel => ⟨_, hk el hel⟩
  · refine filterHtmlAttrsE_fixed s r fun el hel =>
      ⟨?_, (parseElements_no_dollar s hd el hel).1⟩
    rw [hk el hel,
      replaceFirst_self _ _ (parseElements_no_dollar s hd el hel).2]

/-- Claim C8 (witness): falsy (`false`, the empty string, `0`, `null`) and
unrecognized (`5`, a function) matchers all keep their attributes and no
fault is raised. -/
theorem C8_witness :
    filterHtmlAttrsE
        "<div a=\"1\" b=\"2\" c=\"3\" d=\"4\" e=\"5\" f=\"6\">t</div>".data
        (some [("a".data, Matcher.bool false), ("b".data, Matcher.str []),
               ("c".data, Matcher.num 0), ("d".data, Matcher.null),
               ("e".data, Matcher.num 5), ("f".data, Matcher.fn)]) =
      .ok "<div a=\"1\" b=\"2\" c=\"3\" d=\"4\" e=\"5\" f=\"6\">t</div>".data :=
  (C8_harmless
      "<div a=\"1\" b=\"2\" c=\"3\" d=\"4\" e=\"5\" f=\"6\">t</div>".data
      [("a".data, Matcher.bool false), ("b".data, Matcher.str []),
       ("c".data, Matcher.num 0), ("d".data, Matcher.null),
       ("e".data, Matcher.num 5), ("f".data, Matcher.fn)]
      (by decide)).2.2 (by decide)

/-- Claim C9 (counterexample): tab-separated attributes do not guarantee a
no-op.  In `<div div\tdiv>` the two bare attributes `div` are separated by
a tab, yet their single-space join `div div` does occur in the raw tag
text (overlapping the node name), so the replacement fires and mangles
the tag: the output is `<\tdiv>`, not the unchanged input. -/
theorem C9_counterexample :
    parseElements "<div div\tdiv>".data =
      [{ nodeName := "div".data
         attributes := [⟨"div".data, [], "div".data⟩, ⟨"div".data, [], "div".data⟩]
         raw := "<div div\tdiv>".data }] ∧
    filterHtmlAttrsE "<div div\tdiv>".data (some [("div".data, Matcher.bool true)]) =
      .ok "<\tdiv>".data ∧
    "<\tdiv>".data ≠ "<div div\tdiv>".data :=
  ⟨by decide, by decide, by decide⟩

/-- Claim C9 (amended): when the single-space join of the attribute raw
texts of an element does not occur in the raw tag text of the element, the
substring replacement in `filterAttributes` is a no-op and the tag text is
returned unchanged; irregular attribute separation usually, but not
always, puts a tag in this situation. -/
theorem C9_amended (el : Element) (r : RuleSet) (el' : Element)
    (h : filterAttributesE el r = .ok el')
    (hocc : ¬ (joinRaws el.attributes <:+: el.raw)) :
    el'.raw = el.raw := by
  rw [filterAttributesE] at h
  cases hfa : filterListE (keepAttrE r el.nodeName el.attributes) el.attributes with
  | error e => rw [hfa] at h; simp at h
  | ok fa =>
    rw [hfa] at h
    simp only [except_bind_ok, except_pure, Except.ok.injEq] at h
    rw [← h]
    exact replaceFirst_no_occurrence _ _ _ hocc

/-- Claim C9 (witness for the amended theorem): in
`<div a="1"  b="2">` (two spaces) the join `a="1" b="2"` does not occur in
the raw tag, so removing `a` by rule leaves the raw tag text unchanged. -/
theorem C9_amended_witness :
    (⟨"div".data, [⟨"b".data, "2".data, "b=\"2\"".data⟩],
        "<div a=\"1\"  b=\"2\">".data⟩ : Element).raw = elTwoSpaces.raw :=
  C9_amended elTwoSpaces [("a".data, Matcher.bool true)]
    ⟨"div".data, [⟨"b".data, "2".data, "b=\"2\"".data⟩],
      "<div a=\"1\"  b=\"2\">".data⟩
    (by decide) (by decide)

/-- Claim C10: the empty structured matcher `{}` matches unconditionally
— `matches` returns `true` for every node name, attribute list and value
— and a rule carrying it behaves exactly like the boolean matcher
`true` in `filterAttributes`. -/
theorem C10_empty_obj :
    (∀ (nd : Str) (ats : List AttrRec) (v : Str),
      jsMatches nd ats v (Matcher.obj none none) = .tt) ∧
    (∀ (el : Element) (k : Str),
      filterAttributesE el [(k, Matcher.obj none none)] =
        filterAttributesE el [(k, Matcher.bool true)]) := by
  refine ⟨fun _ _ _ => rfl, fun el k => ?_⟩
  have hfun : keepAttrE [(k, Matcher.obj none none)] el.nodeName el.attributes =
      keepAttrE [(k, Matcher.bool true)] el.nodeName el.attributes := by
    funext a
    rw [keepAttrE, keepAttrE]
    rw [show rlookup [(k, Matcher.obj none none)] (resolveKey a.name) =
          if resolveKey a.name == k then some (Matcher.obj none none) else none by
        rw [rlookup, List.lookup]
        cases resolveKey a.name == k <;> simp [List.lookup]]
    rw [show rlookup [(k, Matcher.bool true)] (resolveKey a.name) =
          if resolveKey a.name == k then some (Matcher.bool true) else none by
        rw [rlookup, List.lookup]
        cases resolveKey a.name == k <;> simp [List.lookup]]
    cases resolveKey a.name == k with
    | true =>
      simp only [if_pos rfl, Matcher.truthy]
      rfl
    | false => simp
  rw [filterAttributesE, filterAttributesE, hfun]

end FilterHtmlAttrsSpec
